import Mathlib

/-!
Verification of the JHProject-BE core against its specification.

The development shallowly embeds the TypeScript sources:
  * `src/app/utils/csvutils.ts`  — CSV profiling and column extraction,
  * `src/app/utils/fsutils.ts`   — path handling, metadata assembly, listing,
  * `src/app/routes.ts`          — the `/id/:id` and `/files*` GET handlers.

Streams are modelled by the list of parsed records they deliver, the file
system by a partial map from absolute path to stat data, and the `fast-csv`
parser by the record list it emits (every physical line of the file,
including the header line, is one record, as with the library's default
options).  Machine integers are `Nat`/`Int`.
-/

namespace JHProject

/-! ## CSV model (`src/app/utils/csvutils.ts`) -/

/-- Column classification used by `getCsvHeaders` (`'category' | 'number'`). -/
inductive CsvColType where
  | category
  | number
deriving DecidableEq

/-- One element of the `columns` array built by `getCsvHeaders`. -/
structure CsvColumn where
  header : String
  type : CsvColType
deriving DecidableEq

/-- The resolved value of `getCsvHeaders`: `{ columns, rows }`. -/
structure CsvMetadata where
  columns : List CsvColumn
  rows : Int
deriving DecidableEq

/-- Splitting a character list at every occurrence of `sep`; the model of
JavaScript `String.prototype.split` with a single-character separator. -/
def splitCharsOn (sep : Char) : List Char → List (List Char)
  | [] => [[]]
  | c :: cs =>
    let r := splitCharsOn sep cs
    if c = sep then [] :: r
    else
      match r with
      | [] => [[c]]
      | h :: t => (c :: h) :: t

/-- JavaScript `line.split(sep)` for a one-character separator. -/
def splitString (s : String) (sep : Char) : List String :=
  (splitCharsOn sep s.data).map fun l => ⟨l⟩

/-- The replacement `item.replace(/^"?(.+?)"?$/, '$1')` of `getCsvHeaders`:
one optional leading and one optional trailing double quote are stripped,
each only when at least one character remains for the lazy group. -/
def stripQuotes (s : String) : String :=
  let l := s.data
  let l1 := if 2 ≤ l.length ∧ l.head? = some '"' then l.drop 1 else l
  let l2 := if 2 ≤ l1.length ∧ l1.getLast? = some '"' then l1.dropLast else l1
  ⟨l2⟩

/-- The header array of `getCsvHeaders`:
`line.split(',').map(item => item.replace(/^"?(.+?)"?$/, '$1'))`. -/
def csvHeaderArr (firstLine : String) : List String :=
  (splitString firstLine ',').map stripQuotes

/-- JavaScript `Set.prototype.add` on the per-column value sets: sets are
kept as duplicate-free lists in insertion order, and a cell that is out of
range of its record is the `undefined` value `none`. -/
def setAdd (s : List (Option String)) (v : Option String) : List (Option String) :=
  if v ∈ s then s else s ++ [v]

/-- One `data` event of the profiling stream:
`sets.map((_, index) => sets[index].add(data[index]))`.  The recursion walks
the column sets in order, reading cell `index` of the record for set
`index`. -/
def csvStep : List (List (Option String)) → List String → List (List (Option String))
  | [], _ => []
  | s :: rest, data => setAdd s data[0]? :: csvStep rest (data.drop 1)

/-- `getCsvHeaders` of `csvutils.ts`, as a function of the raw first line
(read by `firstline`) and of the records the CSV stream emits — one record
per physical line, the header line included.  `rows` starts at `-1` "to
account for the header line" and is incremented once per record. -/
def getCsvHeaders (firstLine : String) (records : List (List String)) : CsvMetadata :=
  let headerArr := csvHeaderArr firstLine
  let finalSets := records.foldl csvStep (headerArr.map fun _ => [])
  { columns := (headerArr.zip finalSets).map fun p =>
      { header := p.1
        type := if p.2.length ≤ 5 then CsvColType.category else CsvColType.number }
    rows := (records.length : Int) - 1 }

/-- `getCsvColumns` of `csvutils.ts`: for every record, in stream order,
`result.push(columns.map(col => data[col]))`; an out-of-range index reads
`undefined` (`none`). -/
def getCsvColumns (records : List (List String)) (columns : List Nat) :
    List (List (Option String)) :=
  records.foldl (fun result data => result ++ [columns.map fun col => data[col]?]) []

/-- The raw values observed in column `i` over the whole file,
one per record (the header record included), `none` for a short record. -/
def colValues (records : List (List String)) (i : Nat) : List (Option String) :=
  records.map fun r => r[i]?

/-! ## Path model (Node `path.join` / `path.basename` / `path.extname`) -/

/-- Whether a string starts with a slash (used to detect absolute paths). -/
def headIsSlash (s : String) : Bool :=
  match s.data with
  | c :: _ => c == '/'
  | [] => false

/-- One step of Node path normalization over the stack of kept segments
(held in reverse): empty and `.` segments are skipped, `..` pops a normal
segment, is dropped at the root of an absolute path, and accumulates at the
head of a relative path. -/
def normStep (isAbs : Bool) (stack : List String) (seg : String) : List String :=
  if seg = "" ∨ seg = "." then stack
  else if seg = ".." then
    match stack with
    | [] => if isAbs then [] else [".."]
    | top :: rest => if top = ".." then ".." :: top :: rest else rest
  else seg :: stack

/-- Joining a list of segments with `/`. -/
def joinSegs : List String → String
  | [] => ""
  | [s] => s
  | s :: rest => s ++ "/" ++ joinSegs rest

/-- Node `path.join(...parts)`: concatenate the parts and normalize. -/
def joinParts (parts : List String) : String :=
  let ps := parts.filter fun p => p ≠ ""
  let isAbs :=
    match ps with
    | [] => false
    | p :: _ => headIsSlash p
  let segs := (ps.map fun p => splitString p '/').flatten
  let stack := segs.foldl (normStep isAbs) []
  let body := joinSegs stack.reverse
  if isAbs then "/" ++ body else if body = "" then "." else body

/-- Node `path.join(a, b)`. -/
def pathJoin (a b : String) : String := joinParts [a, b]

/-- Node `path.basename`: the last nonempty `/`-separated segment. -/
def basename (p : String) : String :=
  match ((splitString p '/').filter fun s => s ≠ "").getLast? with
  | some s => s
  | none => ""

/-- Node `path.extname` of a basename: the suffix from the last `.` on,
empty when there is no dot or when the only dot is the leading character. -/
def extname (b : String) : String :=
  match b.data.reverse.findIdx? (fun c => c == '.') with
  | none => ""
  | some j =>
    let i := b.data.length - 1 - j
    if i = 0 then "" else ⟨b.data.drop i⟩

/-- The directory of the compiled `fsutils` module (`__dirname`); its
concrete value is irrelevant to every claim, only the fixed offset
`join(__dirname, '../..')` to the storage root matters. -/
def appDirname : String := "/srv/jhproject/app/utils"

/-- The absolute path `getFileEntry` passes to `fs.lstat`:
`path.join(__dirname, '../..', filePath)`. -/
def statTarget (filePath : String) : String :=
  joinParts [appDirname, "../..", filePath]

/-- The storage root the spec speaks about: `path.join(__dirname, '../..')`. -/
def storageRoot : String := joinParts [appDirname, "../.."]

/-- Whether the first list is an initial run of the second. -/
def leadsWith : List Char → List Char → Bool
  | [], _ => true
  | _ :: _, [] => false
  | a :: as, b :: bs => a == b && leadsWith as bs

/-- Whether an absolute path lies at or below the storage root. -/
def underRoot (q : String) : Bool :=
  q == storageRoot || leadsWith (storageRoot ++ "/").data q.data

/-! ## Cipher model (`crypto.createCipher('aes192', …)` in `fsutils.ts`,
`crypto.createDecipher('aes192', …)` in `routes.ts`) -/

/-- A well-formed 16-byte cipher block. -/
def Block (b : List Nat) : Prop := b.length = 16 ∧ ∀ x ∈ b, x < 256

/-- PKCS#7 padding to a 16-byte multiple, as applied by OpenSSL on
`cipher.final`. -/
def pad (p : List Nat) : List Nat :=
  p ++ List.replicate (16 - p.length % 16) (16 - p.length % 16)

/-- PKCS#7 unpadding, as applied by OpenSSL on `decipher.final`; `none` is
the `bad decrypt` error for invalid padding. -/
def unpad (q : List Nat) : Option (List Nat) :=
  match q.getLast? with
  | none => none
  | some n =>
    if 1 ≤ n ∧ n ≤ 16 ∧ n ≤ q.length ∧ (q.drop (q.length - n)).all (fun x => x == n) then
      some (q.take (q.length - n))
    else none

/-- Fuelled 16-byte chunking (the fuel is instantiated with the list
length, which bounds the number of chunks). -/
def chunkGo : Nat → List Nat → List (List Nat)
  | _, [] => []
  | 0, _ :: _ => []
  | fuel + 1, c :: cs => ((c :: cs).take 16) :: chunkGo fuel ((c :: cs).drop 16)

/-- Splitting a byte string into 16-byte blocks. -/
def chunk16 (l : List Nat) : List (List Nat) := chunkGo l.length l

/-- Bytewise exclusive or of two blocks. -/
def zipXor (a b : List Nat) : List Nat := List.zipWith (fun x y => x ^^^ y) a b

/-- CBC encryption with block function `E`, chaining from `prev`. -/
def cbcEnc (E : List Nat → List Nat) : List Nat → List (List Nat) → List (List Nat)
  | _, [] => []
  | prev, p :: ps =>
    let c := E (zipXor p prev)
    c :: cbcEnc E c ps

/-- CBC decryption with block function `D`, chaining from `prev`. -/
def cbcDec (D : List Nat → List Nat) : List Nat → List (List Nat) → List (List Nat)
  | _, [] => []
  | prev, c :: cs => zipXor (D c) prev :: cbcDec D c cs

/-- Lowercase hexadecimal digit of a value below 16 (`'hex'` output
encoding of `cipher.update`/`cipher.final`): `0`–`9` then `a`–`f` by code
point. -/
def hexDigit (n : Nat) : Char :=
  if n < 10 then Char.ofNat (48 + n) else Char.ofNat (87 + n)

/-- Value of one hexadecimal digit (`'hex'` input encoding of
`decipher.update`), by code-point range; both digit cases are accepted. -/
def hexVal (c : Char) : Option Nat :=
  let n := c.toNat
  if 48 ≤ n ∧ n ≤ 57 then some (n - 48)
  else if 97 ≤ n ∧ n ≤ 102 then some (n - 87)
  else if 65 ≤ n ∧ n ≤ 70 then some (n - 55)
  else none

/-- Hexadecimal rendering of a byte string, two digits per byte. -/
def hexEncode (bs : List Nat) : List Char :=
  bs.foldr (fun b acc => hexDigit (b / 16) :: hexDigit (b % 16) :: acc) []

/-- Hexadecimal parsing; `none` for a malformed hex string (the model of
the error `decipher` raises on such input). -/
def hexDecode : List Char → Option (List Nat)
  | [] => some []
  | [_] => none
  | a :: b :: rest =>
    match hexVal a, hexVal b, hexDecode rest with
    | some x, some y, some tail => some ((16 * x + y) :: tail)
    | _, _, _ => none

/-- Modelled from the spec: the key material of the path codec.
`config/secret` — the process-wide secret established at startup — is not
part of the source tree, and `createCipher`'s EVP key derivation together
with the AES-192 block function is library code.  The spec mandates a
single process-wide secret shared by the encoder in `getFileEntry` and the
decoder in the `/id/:id` route, so both sides are given the same derived
key schedule: a block permutation `enc` with inverse `dec`, and the fixed
IV the derivation produces. -/
structure CipherKey where
  enc : List Nat → List Nat
  dec : List Nat → List Nat
  iv : List Nat

/-- The properties EVP key derivation guarantees for an AES-192 schedule:
the IV is one block, encryption maps blocks to blocks, decryption inverts
encryption. -/
def GoodKey (k : CipherKey) : Prop :=
  Block k.iv ∧ (∀ b, Block b → Block (k.enc b)) ∧ (∀ b, Block b → k.dec (k.enc b) = b)

/-- `cipher.update(filePath, 'utf8', 'hex') + cipher.final('hex')` of
`getFileEntry`, over the UTF-8 bytes of the path. -/
def encodeId (k : CipherKey) (p : List Nat) : String :=
  ⟨hexEncode (cbcEnc k.enc k.iv (chunk16 (pad p))).flatten⟩

/-- `decipher.update(id, 'hex', 'utf8') + decipher.final('utf8')` of the
`/id/:id` handler; `none` is the error thrown on malformed hex, on a
ciphertext that is not a positive multiple of the block size, or on bad
padding. -/
def decodeId (k : CipherKey) (s : String) : Option (List Nat) :=
  match hexDecode s.data with
  | none => none
  | some bs =>
    if bs.length ≠ 0 ∧ bs.length % 16 = 0 then
      unpad (cbcDec k.dec k.iv (chunk16 bs)).flatten
    else none

/-- A concrete key schedule (identity block function, zero IV) used to
instantiate witnesses; it satisfies `GoodKey`. -/
def idKey : CipherKey := ⟨fun b => b, fun b => b, List.replicate 16 0⟩

/-- UTF-8 encoding of one character. -/
def encodeUtf8Char (c : Char) : List Nat :=
  let n := c.toNat
  if n < 128 then [n]
  else if n < 2048 then [192 + n / 64, 128 + n % 64]
  else if n < 65536 then [224 + n / 4096, 128 + n / 64 % 64, 128 + n % 64]
  else [240 + n / 262144, 128 + n / 4096 % 64, 128 + n / 64 % 64, 128 + n % 64]

/-- UTF-8 bytes of a string (`Buffer.from(s, 'utf8')`). -/
def utf8Bytes (s : String) : List Nat := (s.data.map encodeUtf8Char).flatten

/-! ## File-system model (`src/app/utils/fsutils.ts`) -/

/-- The stat data `getFileEntry` consumes. -/
structure Stats where
  isDirectory : Bool
  size : Nat
deriving DecidableEq

/-- The file system as an environment: `fs.lstat` results by absolute
path, `none` meaning the stat fails. -/
abbrev FsEnv := String → Option Stats

/-- The `type` variants of a file entry. -/
inductive FileType where
  | directory
  | tabular
  | scalable_image
  | file
deriving DecidableEq

/-- The `supported_views` object: `meta: null` is always present, `raw`
carries the byte size, and the `tabular` / `scalable_image` descriptors are
present if and only if warranted by the type. -/
structure SupportedViews where
  meta : Bool
  rawSize : Nat
  tabular : Bool
  scalableImage : Bool
deriving DecidableEq

/-- The fixed initial metadata `{version: 1, namespaces: {}}`. -/
structure Metadata where
  version : Nat
deriving DecidableEq

/-- Initial value of the metadata field as specified in the protocol. -/
def initialMetadata : Metadata := ⟨1⟩

/-- One entry of the protocol (`IFileEntry` without the optional
`children`, which only `listFiles` results carry). -/
structure FileEntry where
  file_path : String
  file_name : String
  id : String
  supported_views : SupportedViews
  type : FileType
  metadata : Metadata
  status : String
deriving DecidableEq

/-- The failures `getFileEntry` can raise: only the awaited `lstat` can
reject. -/
inductive FsError where
  | statError
deriving DecidableEq

/-- `getFileEntry` of `fsutils.ts`: basename, stat (the only fallible
step), opaque id, then the record matching the directory flag and the
extension switch. -/
def getFileEntry (k : CipherKey) (fs : FsEnv) (filePath : String) :
    Except FsError FileEntry :=
  let file := basename filePath
  match fs (statTarget filePath) with
  | none => Except.error FsError.statError
  | some stats =>
    let id := encodeId k (utf8Bytes filePath)
    if stats.isDirectory then
      Except.ok
        { file_path := filePath
          file_name := file
          id := id
          supported_views :=
            { meta := true, rawSize := stats.size, tabular := false, scalableImage := false }
          type := FileType.directory
          metadata := initialMetadata
          status := "ready" }
    else
      let ext := extname file
      if ext = ".csv" then
        Except.ok
          { file_path := filePath
            file_name := file
            id := id
            supported_views :=
              { meta := true, rawSize := stats.size, tabular := true, scalableImage := false }
            type := FileType.tabular
            metadata := initialMetadata
            status := "ready" }
      else if ext = ".png" ∨ ext = ".jpg" ∨ ext = ".dzi" then
        Except.ok
          { file_path := filePath
            file_name := file
            id := id
            supported_views :=
              { meta := true, rawSize := stats.size, tabular := false, scalableImage := true }
            type := FileType.scalable_image
            metadata := initialMetadata
            status := "ready" }
      else
        Except.ok
          { file_path := filePath
            file_name := file
            id := id
            supported_views :=
              { meta := true, rawSize := stats.size, tabular := false, scalableImage := false }
            type := FileType.file
            metadata := initialMetadata
            status := "ready" }

/-- The claim-side classification table: `type` as a pure function of the
directory flag and the extension, the flag taking precedence. -/
def fileTypeOf (isDir : Bool) (ext : String) : FileType :=
  if isDir then FileType.directory
  else if ext = ".csv" then FileType.tabular
  else if ext = ".png" ∨ ext = ".jpg" ∨ ext = ".dzi" then FileType.scalable_image
  else FileType.file

/-- `fileName.startsWith('.')`. -/
def startsWithDot (s : String) : Bool :=
  match s.data with
  | c :: _ => c == '.'
  | [] => false

/-- `scanFiles` of `fsutils.ts`: hidden names resolve to `undefined`, a
failed `getFileEntry` is caught, logged and resolved to `undefined`, every
other name resolves to its entry. -/
def scanFiles (k : CipherKey) (fs : FsEnv) (parentPath : String) (names : List String) :
    List (Option FileEntry) :=
  names.map fun fileName =>
    if startsWithDot fileName then none
    else
      match getFileEntry k fs (pathJoin parentPath fileName) with
      | Except.error _ => none
      | Except.ok e => some e

/-- Primary collation weight of a character: its code point after ASCII
lowercasing.  Together with `caseRank` this models
`String.prototype.localeCompare` under the default locale for ASCII names:
a case-insensitive primary pass, then lowercase-before-uppercase as the
tiebreak. -/
def lowerNat (c : Char) : Nat :=
  if 65 ≤ c.toNat ∧ c.toNat ≤ 90 then c.toNat + 32 else c.toNat

/-- Tertiary collation weight: uppercase sorts after lowercase. -/
def caseRank (c : Char) : Nat :=
  if 65 ≤ c.toNat ∧ c.toNat ≤ 90 then 1 else 0

/-- Primary collation key of a string. -/
def strKey1 (s : String) : List Nat := s.data.map lowerNat

/-- Tertiary collation key of a string. -/
def strKey2 (s : String) : List Nat := s.data.map caseRank

/-- Lexicographic three-way comparison of weight lists. -/
def cmpNatList : List Nat → List Nat → Ordering
  | [], [] => Ordering.eq
  | [], _ :: _ => Ordering.lt
  | _ :: _, [] => Ordering.gt
  | a :: as, b :: bs =>
    if a < b then Ordering.lt
    else if b < a then Ordering.gt
    else cmpNatList as bs

/-- Both collation keys of a string. -/
def strKeys (s : String) : List Nat × List Nat := (strKey1 s, strKey2 s)

/-- Comparison of key pairs: primary key first, tiebreak second. -/
def lcOrd (p q : List Nat × List Nat) : Ordering :=
  match cmpNatList p.1 q.1 with
  | Ordering.eq => cmpNatList p.2 q.2
  | o => o

/-- The model of `file_name.localeCompare`: negative, zero or positive. -/
def localeCompare (s t : String) : Int :=
  match lcOrd (strKeys s) (strKeys t) with
  | Ordering.lt => -1
  | Ordering.eq => 0
  | Ordering.gt => 1

/-- `compareEntries` of `fsutils.ts`: directories first, then locale
comparison of `file_name`. -/
def compareEntries (e1 e2 : FileEntry) : Int :=
  if e1.type = FileType.directory ∧ ¬e2.type = FileType.directory then -1
  else if ¬e1.type = FileType.directory ∧ e2.type = FileType.directory then 1
  else localeCompare e1.file_name e2.file_name

/-- The sort relation induced by the comparator, as consumed by
`Array.prototype.sort`. -/
def entryLe (e1 e2 : FileEntry) : Prop := compareEntries e1 e2 ≤ 0

instance : DecidableRel entryLe :=
  fun e1 e2 => inferInstanceAs (Decidable (compareEntries e1 e2 ≤ 0))

/-- `listFiles` of `fsutils.ts` as a function of the names `readdir`
returns: resolve the children, drop the `undefined` ones, and sort with
`compareEntries` (ECMAScript `sort` is stable; a stable insertion sort
models it). -/
def listFiles (k : CipherKey) (fs : FsEnv) (parentPath : String) (names : List String) :
    List FileEntry :=
  List.insertionSort entryLe ((scanFiles k fs parentPath names).filterMap id)

/-- The alphabetical-only sort relation of the last staged revision of
`fsutils.ts`, whose `compareEntries` compares `file_name` alone. -/
def entryLeAlpha (e1 e2 : FileEntry) : Prop :=
  localeCompare e1.file_name e2.file_name ≤ 0

instance : DecidableRel entryLeAlpha :=
  fun e1 e2 => inferInstanceAs (Decidable (localeCompare e1.file_name e2.file_name ≤ 0))

/-- `scanFiles` of the last staged revision of `fsutils.ts` (the lines
around 416-421): hidden names still resolve to `undefined`, but the catch
rethrows — `throw new Error('Could not get stats for file ' + fileName)` —
so `Promise.all` rejects as soon as any non-hidden child's resolution
fails; the sequential model reports the first failing child's message.
That revision's `getFileEntry` differs only in the record it builds (the
`/files/` slice, the `asChild` tabular descriptor); the awaited `lstat` is
the one fallible step in both, so the entry builder is shared. -/
def scanFilesThrow (k : CipherKey) (fs : FsEnv) (parentPath : String) :
    List String → Except String (List (Option FileEntry))
  | [] => Except.ok []
  | fileName :: rest =>
    if startsWithDot fileName then
      (scanFilesThrow k fs parentPath rest).map fun l => none :: l
    else
      match getFileEntry k fs (pathJoin parentPath fileName) with
      | Except.error _ => Except.error ("Could not get stats for file " ++ fileName)
      | Except.ok e => (scanFilesThrow k fs parentPath rest).map fun l => some e :: l

/-- `listFiles` over the throwing revision: the rejection of `Promise.all`
propagates, so the whole listing fails whenever one child's resolution
fails; on success the `undefined` slots are filtered and the rest sorted
with that revision's alphabetical comparator. -/
def listFilesThrow (k : CipherKey) (fs : FsEnv) (parentPath : String)
    (names : List String) : Except String (List FileEntry) :=
  (scanFilesThrow k fs parentPath names).map fun filelist =>
    List.insertionSort entryLeAlpha (filelist.filterMap id)

/-- Whether a fallible computation succeeded. -/
def exceptIsOk {ε α : Type} : Except ε α → Bool
  | Except.ok _ => true
  | Except.error _ => false

/-- The rejection reason of a fallible computation, when it failed. -/
def exceptErr {ε α : Type} : Except ε α → Option ε
  | Except.error e => some e
  | Except.ok _ => none

/-- The value of a fallible computation, when it succeeded. -/
def exceptVal {ε α : Type} : Except ε α → Option α
  | Except.ok a => some a
  | Except.error _ => none

/-! ## Route model (`src/app/routes.ts`) -/

/-- Observable outcome of a GET handler: a successful response (tag
abstracting which view was rendered or sent), the catch-all error
response, or an exception escaping the handler uncaught. -/
inductive Outcome where
  | content (tag : String)
  | errorResponse (body : String)
  | uncaught
deriving DecidableEq

/-- The directory of the compiled `routes` module. -/
def routesDirname : String := "/srv/jhproject/app"

/-- The absolute path `handleGetRequest` stats directly:
`path.join(__dirname, '../..', filepath)` from `routes.ts`. -/
def routeStatTarget (filepath : String) : String :=
  joinParts [routesDirname, "../..", filepath]

/-- `handleGetRequest` of `routes.ts` for a plain GET (no query
parameters): everything inside its `try` — `getFileEntry`, the second
`lstat`, the per-type response — is caught and mapped to the
`'Path could not be read.'` response; the successful branches are
abstracted into `Outcome.content` tags. -/
def handleGetRequest (k : CipherKey) (fs : FsEnv) (filepath : String) : Outcome :=
  match getFileEntry k fs filepath with
  | Except.error _ => Outcome.errorResponse "Path could not be read."
  | Except.ok _ =>
    match fs (routeStatTarget filepath) with
    | none => Outcome.errorResponse "Path could not be read."
    | some st => Outcome.content (if st.isDirectory then "filebrowse" else "file")

/-- Byte-to-text conversion of the decoded path (`'utf8'` output encoding
of the decipher), by code point — exact for the ASCII paths at issue. -/
def stringOfBytes (bs : List Nat) : String := ⟨bs.map Char.ofNat⟩

/-- The `/id/:id` handler: the decipher runs before — and outside — the
`try`/`catch` of `handleGetRequest`, so a decode failure escapes the
handler uncaught. -/
def idRoute (k : CipherKey) (fs : FsEnv) (idStr : String) : Outcome :=
  match decodeId k idStr with
  | none => Outcome.uncaught
  | some p => handleGetRequest k fs (stringOfBytes p)

/-- Whether a `getFileEntry` result is a success. -/
def isOkResult (r : Except FsError FileEntry) : Bool :=
  match r with
  | Except.ok _ => true
  | Except.error _ => false

/-! ## Concrete environments for witnesses and counterexamples -/

/-- A directory `files` holding the directory `A` and the plain files
`a.txt` and `b.txt` (the hidden child `.hidden` is never stat'ed). -/
def fsEx : FsEnv := fun s =>
  if s = "/srv/jhproject/files/A" then some ⟨true, 0⟩
  else if s = "/srv/jhproject/files/a.txt" then some ⟨false, 1⟩
  else if s = "/srv/jhproject/files/b.txt" then some ⟨false, 2⟩
  else none

/-- A directory `files` where `x.txt` and `y.txt` stat fine and every
other child's stat fails. -/
def fsPartial : FsEnv := fun s =>
  if s = "/srv/jhproject/files/x.txt" then some ⟨false, 1⟩
  else if s = "/srv/jhproject/files/y.txt" then some ⟨false, 2⟩
  else none

/-- A file system whose only entry lies outside the storage root. -/
def fsOutside : FsEnv := fun s =>
  if s = "/etc/passwd" then some ⟨false, 4⟩ else none

/-! ### Lemmas about the streaming fold -/

theorem csvStep_getElem? (sets : List (List (Option String))) (data : List String)
    (i : Nat) : (csvStep sets data)[i]? = sets[i]?.map fun s => setAdd s data[i]? := by
  induction sets generalizing data i with
  | nil => simp [csvStep]
  | cons s rest ih =>
    cases i with
    | zero => simp [csvStep]
    | succ j =>
      simp only [csvStep, List.getElem?_cons_succ, ih (data.drop 1) j,
        List.getElem?_drop]
      rw [Nat.add_comm 1 j]

theorem foldl_csvStep_getElem? (records : List (List String)) :
    ∀ (sets : List (List (Option String))) (i : Nat),
      (records.foldl csvStep sets)[i]? =
        sets[i]?.map fun s => (colValues records i).foldl setAdd s := by
  induction records with
  | nil => intro sets i; simp [colValues]
  | cons r rs ih =>
    intro sets i
    simp only [List.foldl_cons, ih (csvStep sets r) i, csvStep_getElem?,
      Option.map_map, colValues, List.map_cons, List.foldl_cons]
    rfl

theorem mem_foldl_setAdd (vs : List (Option String)) :
    ∀ (s : List (Option String)) (x : Option String),
      x ∈ vs.foldl setAdd s ↔ x ∈ s ∨ x ∈ vs := by
  induction vs with
  | nil => simp
  | cons v vs ih =>
    intro s x
    rw [List.foldl_cons, ih (setAdd s v) x]
    unfold setAdd
    by_cases hv : v ∈ s
    · simp only [if_pos hv, List.mem_cons]
      constructor
      · rintro (h | h)
        · exact Or.inl h
        · exact Or.inr (Or.inr h)
      · rintro (h | rfl | h)
        · exact Or.inl h
        · exact Or.inl hv
        · exact Or.inr h
    · simp only [if_neg hv, List.mem_append, List.mem_singleton, List.mem_cons]
      tauto

theorem nodup_foldl_setAdd (vs : List (Option String)) :
    ∀ s : List (Option String), s.Nodup → (vs.foldl setAdd s).Nodup := by
  induction vs with
  | nil => exact fun s hs => hs
  | cons v vs ih =>
    intro s hs
    rw [List.foldl_cons]
    refine ih (setAdd s v) ?_
    unfold setAdd
    by_cases hv : v ∈ s
    · simpa [hv] using hs
    · simp [hv, List.nodup_append, hs]

theorem length_foldl_setAdd (vs : List (Option String)) :
    (vs.foldl setAdd []).length = vs.toFinset.card := by
  have hnd : (vs.foldl setAdd []).Nodup := nodup_foldl_setAdd vs [] List.nodup_nil
  have hset : (vs.foldl setAdd []).toFinset = vs.toFinset := by
    apply Finset.ext
    intro x
    simp [List.mem_toFinset, mem_foldl_setAdd]
  calc (vs.foldl setAdd []).length
      = (vs.foldl setAdd []).toFinset.card := (List.toFinset_card_of_nodup hnd).symm
    _ = vs.toFinset.card := by rw [hset]

theorem getCsvColumns_eq_map (records : List (List String)) (cols : List Nat) :
    getCsvColumns records cols = records.map fun r => cols.map fun c => r[c]? := by
  unfold getCsvColumns
  suffices h : ∀ acc : List (List (Option String)),
      records.foldl (fun result data => result ++ [cols.map fun col => data[col]?]) acc =
        acc ++ records.map (fun r => cols.map fun c => r[c]?) by
    simpa using h []
  induction records with
  | nil => intro acc; simp
  | cons r rs ih => intro acc; simp [ih]

/-! ### Claims C2, C8, C9, C10 -/

/-- Claim C2: `getCsvHeaders` classifies a column as `category` iff the
number of distinct raw values observed in that column over a full pass of
the file (the header record included, a missing cell counting as
`undefined`) is at most 5, and as `number` otherwise; in particular a
one-column file with 5 distinct observed values is `category` and one with
6 distinct observed values is `number`. -/
theorem csv_category_iff_distinct_le_five
    (firstLine : String) (records : List (List String)) (i : Nat) (col : CsvColumn)
    (h : (getCsvHeaders firstLine records).columns[i]? = some col) :
    (col.type = CsvColType.category ↔ (colValues records i).toFinset.card ≤ 5) ∧
    (getCsvHeaders "h" [["h"], ["a"], ["b"], ["c"], ["d"]]).columns =
      [{ header := "h", type := CsvColType.category }] ∧
    (getCsvHeaders "h" [["h"], ["a"], ["b"], ["c"], ["d"], ["e"]]).columns =
      [{ header := "h", type := CsvColType.number }] := by
  refine ⟨?_, by decide, by decide⟩
  unfold getCsvHeaders at h
  simp only [List.getElem?_map] at h
  obtain ⟨⟨hd, set⟩, hzip, hcol⟩ := Option.map_eq_some'.mp h
  have h2 := (List.getElem?_zip_eq_some.mp hzip).2
  rw [foldl_csvStep_getElem?] at h2
  obtain ⟨s0, hs0, hfold⟩ := Option.map_eq_some'.mp h2
  have hs0' : s0 = [] := by
    rw [List.getElem?_map] at hs0
    rcases Option.map_eq_some'.mp hs0 with ⟨_, _, h⟩
    exact h.symm
  subst hs0'
  subst hfold
  rw [← hcol]
  simp only [← length_foldl_setAdd]
  by_cases hle : ((colValues records i).foldl setAdd []).length ≤ 5
  · simp [hle]
  · simp [hle]

/-- Claim C8: for a CSV consisting of one header line followed by `N` data
lines, `getCsvHeaders` reports `rows = N`: the counter starts at `-1` and
is incremented once per record, so the header line is excluded. -/
theorem csv_rows_excludes_header (firstLine : String) (hdr : List String)
    (rest : List (List String)) :
    (getCsvHeaders firstLine (hdr :: rest)).rows = rest.length := by
  simp only [getCsvHeaders, List.length_cons]
  omega

/-- Claim C9: `getCsvColumns` returns one tuple per source record, in
source order, each tuple holding the record's cells at the requested
indices in the order the indices were given; an out-of-range index yields
`undefined` (`none`) at that position instead of failing.  Concretely,
records `[[1,2,3],[4,5,6]]` with indices `[2,0]` give `[[3,1],[6,4]]`. -/
theorem csv_columns_extraction (records : List (List String)) (cols : List Nat) :
    (getCsvColumns records cols).length = records.length ∧
    (∀ i : Nat, (getCsvColumns records cols)[i]? =
      records[i]?.map fun r => cols.map fun c => r[c]?) ∧
    getCsvColumns [["1", "2", "3"], ["4", "5", "6"]] [2, 0] =
      [[some "3", some "1"], [some "6", some "4"]] ∧
    getCsvColumns [["1", "2"]] [5] = [[none]] := by
  refine ⟨?_, ?_, by decide, by decide⟩
  · rw [getCsvColumns_eq_map, List.length_map]
  · intro i
    rw [getCsvColumns_eq_map, List.getElem?_map]

/-- Evaluation of claim C2's theorem on a concrete one-column file. -/
theorem csv_category_witness :
    (getCsvHeaders "h" [["h"], ["a"]]).columns[0]? =
        some { header := "h", type := CsvColType.category } ∧
    ((CsvColumn.mk "h" CsvColType.category).type = CsvColType.category ↔
      (colValues [["h"], ["a"]] 0).toFinset.card ≤ 5) :=
  ⟨by decide, (csv_category_iff_distinct_le_five "h" [["h"], ["a"]] 0
      { header := "h", type := CsvColType.category } (by decide)).1⟩

/-- Claim C10: `getCsvColumns` does not skip the header line: the parser
emits the header line as an ordinary record, so the first returned tuple
holds the header tokens at the requested indices. -/
theorem csv_columns_includes_header (hdr : List String) (rest : List (List String))
    (cols : List Nat) :
    (getCsvColumns (hdr :: rest) cols).head? = some (cols.map fun c => hdr[c]?) := by
  rw [getCsvColumns_eq_map]
  simp

/-! ### Lemmas about the cipher pipeline -/

theorem getLast?_replicate_pos {α : Type} (x : α) {m : Nat} (h : 0 < m) :
    (List.replicate m x).getLast? = some x := by
  obtain ⟨k, rfl⟩ : ∃ k, m = k + 1 := ⟨m - 1, by omega⟩
  rw [List.replicate_succ', List.getLast?_append]
  simp

theorem unpad_pad (p : List Nat) : unpad (pad p) = some p := by
  have hmod : p.length % 16 < 16 := Nat.mod_lt _ (by omega)
  set n := 16 - p.length % 16 with hn
  have hn1 : 1 ≤ n := by omega
  have hn16 : n ≤ 16 := by omega
  have hlen : (pad p).length = p.length + n := by
    rw [pad, ← hn]
    simp
  have hlast : (pad p).getLast? = some n := by
    rw [pad, ← hn, List.getLast?_append, getLast?_replicate_pos n hn1]
    rfl
  have hdrop : (pad p).drop ((pad p).length - n) = List.replicate n n := by
    rw [hlen, Nat.add_sub_cancel, pad, ← hn, List.drop_left]
  have htake : (pad p).take ((pad p).length - n) = p := by
    rw [hlen, Nat.add_sub_cancel, pad, ← hn, List.take_left]
  unfold unpad
  rw [hlast]
  show (if 1 ≤ n ∧ n ≤ 16 ∧ n ≤ (pad p).length ∧
      ((List.drop ((pad p).length - n) (pad p)).all fun x => x == n) = true then
      some (List.take ((pad p).length - n) (pad p)) else none) = some p
  rw [if_pos]
  · rw [htake]
  · refine ⟨hn1, hn16, by omega, ?_⟩
    rw [hdrop]
    simp [List.all_eq_true]

theorem pad_length_dvd (p : List Nat) : 16 ∣ (pad p).length := by
  rw [pad]
  simp only [List.length_append, List.length_replicate]
  omega

theorem pad_length_pos (p : List Nat) : 0 < (pad p).length := by
  rw [pad]
  simp only [List.length_append, List.length_replicate]
  omega

theorem pad_valid (p : List Nat) (h : ∀ x ∈ p, x < 256) : ∀ x ∈ pad p, x < 256 := by
  intro x hx
  rw [pad, List.mem_append] at hx
  rcases hx with hx | hx
  · exact h x hx
  · have := List.eq_of_mem_replicate hx
    omega

theorem chunkGo_flatten : ∀ (fuel : Nat) (l : List Nat), l.length ≤ fuel →
    (chunkGo fuel l).flatten = l := by
  intro fuel
  induction fuel with
  | zero =>
    intro l h
    cases l with
    | nil => rfl
    | cons c cs => simp at h
  | succ f ih =>
    intro l h
    cases l with
    | nil => rfl
    | cons c cs =>
      show ((c :: cs).take 16 :: chunkGo f ((c :: cs).drop 16)).flatten = c :: cs
      rw [List.flatten_cons, ih ((c :: cs).drop 16) (by
        simp only [List.length_drop, List.length_cons]
        simp only [List.length_cons] at h
        omega)]
      exact List.take_append_drop 16 (c :: cs)

theorem chunk16_flatten (l : List Nat) : (chunk16 l).flatten = l :=
  chunkGo_flatten l.length l le_rfl

theorem chunkGo_blocks : ∀ (fuel : Nat) (l : List Nat), 16 ∣ l.length → l.length ≤ fuel →
    ∀ b ∈ chunkGo fuel l, b.length = 16 ∧ ∀ x ∈ b, x ∈ l := by
  intro fuel
  induction fuel with
  | zero =>
    intro l hdvd h b hb
    cases l with
    | nil => simp [chunkGo] at hb
    | cons c cs => simp at h
  | succ f ih =>
    intro l hdvd h b hb
    cases l with
    | nil => simp [chunkGo] at hb
    | cons c cs =>
      have hlen16 : 16 ≤ (c :: cs).length := Nat.le_of_dvd (by simp) hdvd
      rw [show chunkGo (f + 1) (c :: cs) =
          (c :: cs).take 16 :: chunkGo f ((c :: cs).drop 16) from rfl,
        List.mem_cons] at hb
      rcases hb with rfl | hb
      · refine ⟨by simpa using hlen16, fun x hx => List.take_subset _ _ hx⟩
      · have hdvd' : 16 ∣ ((c :: cs).drop 16).length := by
          have hd := hdvd
          simp only [List.length_drop, List.length_cons] at hd ⊢
          omega
        have hle' : ((c :: cs).drop 16).length ≤ f := by
          simp only [List.length_drop, List.length_cons]
          simp only [List.length_cons] at h
          omega
        obtain ⟨h1, h2⟩ := ih ((c :: cs).drop 16) hdvd' hle' b hb
        exact ⟨h1, fun x hx => List.drop_subset _ _ (h2 x hx)⟩

theorem chunk16_blocks (l : List Nat) (hdvd : 16 ∣ l.length) (hv : ∀ x ∈ l, x < 256) :
    ∀ b ∈ chunk16 l, Block b := by
  intro b hb
  obtain ⟨h1, h2⟩ := chunkGo_blocks l.length l hdvd le_rfl b hb
  exact ⟨h1, fun x hx => hv x (h2 x hx)⟩

theorem chunkGo_flatten_blocks : ∀ (L : List (List Nat)) (fuel : Nat),
    (∀ b ∈ L, b.length = 16) → L.flatten.length ≤ fuel → chunkGo fuel L.flatten = L := by
  intro L
  induction L with
  | nil =>
    intro fuel _ _
    cases fuel <;> rfl
  | cons b L ih =>
    intro fuel hlen hfuel
    have hb : b.length = 16 := hlen b (List.mem_cons_self _ _)
    rw [List.flatten_cons] at hfuel ⊢
    cases fuel with
    | zero =>
      exfalso
      simp only [List.length_append, hb] at hfuel
      omega
    | succ f =>
      cases b with
      | nil => simp at hb
      | cons x xs =>
        rw [List.cons_append]
        show ((x :: (xs ++ L.flatten)).take 16) ::
            chunkGo f ((x :: (xs ++ L.flatten)).drop 16) = (x :: xs) :: L
        rw [← List.cons_append, List.take_left' hb, List.drop_left' hb,
          ih f (fun c hc => hlen c (List.mem_cons_of_mem _ hc))
            (by simp only [List.length_append, hb] at hfuel; omega)]

theorem chunk16_flatten_blocks (L : List (List Nat)) (hlen : ∀ b ∈ L, b.length = 16) :
    chunk16 L.flatten = L :=
  chunkGo_flatten_blocks L L.flatten.length hlen le_rfl

theorem zipXor_valid : ∀ (a b : List Nat), (∀ x ∈ a, x < 256) → (∀ x ∈ b, x < 256) →
    ∀ x ∈ zipXor a b, x < 256 := by
  intro a
  induction a with
  | nil => intro b _ _ x hx; simp [zipXor] at hx
  | cons u us ih =>
    intro b ha hb x hx
    cases b with
    | nil => simp [zipXor] at hx
    | cons v vs =>
      rw [show zipXor (u :: us) (v :: vs) = (u ^^^ v) :: zipXor us vs from rfl,
        List.mem_cons] at hx
      rcases hx with rfl | hx
      · have hu : u < 2 ^ 8 := by
          have := ha u (List.mem_cons_self _ _)
          omega
        have hv : v < 2 ^ 8 := by
          have := hb v (List.mem_cons_self _ _)
          omega
        have := Nat.xor_lt_two_pow hu hv
        omega
      · exact ih vs (fun y hy => ha y (List.mem_cons_of_mem _ hy))
          (fun y hy => hb y (List.mem_cons_of_mem _ hy)) x hx

theorem zipXor_block {a b : List Nat} (ha : Block a) (hb : Block b) : Block (zipXor a b) := by
  refine ⟨?_, zipXor_valid a b ha.2 hb.2⟩
  simp [zipXor, List.length_zipWith, ha.1, hb.1]

theorem zipXor_cancel : ∀ (a b : List Nat), a.length = b.length →
    zipXor (zipXor a b) b = a := by
  intro a
  induction a with
  | nil =>
    intro b h
    cases b with
    | nil => rfl
    | cons v vs => simp at h
  | cons u us ih =>
    intro b h
    cases b with
    | nil => simp at h
    | cons v vs =>
      show (u ^^^ v ^^^ v) :: zipXor (zipXor us vs) vs = u :: us
      rw [Nat.xor_cancel_right, ih vs (by simpa using h)]

theorem cbcEnc_blocks (E : List Nat → List Nat) (hE : ∀ b, Block b → Block (E b)) :
    ∀ (ps : List (List Nat)) (prev : List Nat), Block prev → (∀ p ∈ ps, Block p) →
      ∀ c ∈ cbcEnc E prev ps, Block c := by
  intro ps
  induction ps with
  | nil => intro prev _ _ c hc; simp [cbcEnc] at hc
  | cons p ps ih =>
    intro prev hprev hps c hc
    rw [show cbcEnc E prev (p :: ps) =
        E (zipXor p prev) :: cbcEnc E (E (zipXor p prev)) ps from rfl,
      List.mem_cons] at hc
    have hblock : Block (E (zipXor p prev)) :=
      hE _ (zipXor_block (hps p (List.mem_cons_self _ _)) hprev)
    rcases hc with rfl | hc
    · exact hblock
    · exact ih (E (zipXor p prev)) hblock
        (fun q hq => hps q (List.mem_cons_of_mem _ hq)) c hc

theorem cbcDec_cbcEnc (E D : List Nat → List Nat) (hE : ∀ b, Block b → Block (E b))
    (hD : ∀ b, Block b → D (E b) = b) :
    ∀ (ps : List (List Nat)) (prev : List Nat), Block prev → (∀ p ∈ ps, Block p) →
      cbcDec D prev (cbcEnc E prev ps) = ps := by
  intro ps
  induction ps with
  | nil => intro prev _ _; rfl
  | cons p ps ih =>
    intro prev hprev hps
    have hp : Block p := hps p (List.mem_cons_self _ _)
    have hxb : Block (zipXor p prev) := zipXor_block hp hprev
    show zipXor (D (E (zipXor p prev))) prev ::
        cbcDec D (E (zipXor p prev)) (cbcEnc E (E (zipXor p prev)) ps) = p :: ps
    rw [hD _ hxb, zipXor_cancel p prev (by rw [hp.1, hprev.1]),
      ih (E (zipXor p prev)) (hE _ hxb) (fun q hq => hps q (List.mem_cons_of_mem _ hq))]

theorem hexVal_hexDigit {q : Nat} (h : q < 16) : hexVal (hexDigit q) = some q := by
  have hall : ∀ q : Nat, q < 16 → hexVal (hexDigit q) = some q := by decide
  exact hall q h

theorem hexDecode_hexEncode : ∀ (bs : List Nat), (∀ x ∈ bs, x < 256) →
    hexDecode (hexEncode bs) = some bs := by
  intro bs
  induction bs with
  | nil => intro _; rfl
  | cons b bs ih =>
    intro h
    have hb : b < 256 := h b (List.mem_cons_self _ _)
    show hexDecode (hexDigit (b / 16) :: hexDigit (b % 16) :: hexEncode bs) = some (b :: bs)
    rw [show hexDecode (hexDigit (b / 16) :: hexDigit (b % 16) :: hexEncode bs) =
        match hexVal (hexDigit (b / 16)), hexVal (hexDigit (b % 16)), hexDecode (hexEncode bs) with
        | some x, some y, some tail => some ((16 * x + y) :: tail)
        | _, _, _ => none from rfl,
      hexVal_hexDigit (by omega : b / 16 < 16), hexVal_hexDigit (by omega : b % 16 < 16),
      ih (fun y hy => h y (List.mem_cons_of_mem _ hy))]
    show some ((16 * (b / 16) + b % 16) :: bs) = some (b :: bs)
    have : 16 * (b / 16) + b % 16 = b := by omega
    rw [this]

theorem flatten_blocks_length (L : List (List Nat)) (h : ∀ b ∈ L, b.length = 16) :
    L.flatten.length = 16 * L.length := by
  induction L with
  | nil => rfl
  | cons b L ih =>
    rw [List.flatten_cons, List.length_append, h b (List.mem_cons_self _ _),
      ih (fun c hc => h c (List.mem_cons_of_mem _ hc)), List.length_cons]
    ring

theorem chunk16_ne_nil (l : List Nat) (h : l ≠ []) : chunk16 l ≠ [] := by
  cases l with
  | nil => exact absurd rfl h
  | cons c cs =>
    show chunkGo (cs.length + 1) (c :: cs) ≠ []
    simp [chunkGo]

/-- Claim C1: for every legal relative path — modelled by its UTF-8 byte
sequence, with the null byte excluded — decoding the identifier produced by
the keyed aes192 cipher of `getFileEntry` with the matching decipher of the
`/id/:id` handler yields the path again: `decode (encode p) = p`. -/
theorem pathCodec_roundtrip (k : CipherKey) (hk : GoodKey k) (p : List Nat)
    (hbytes : ∀ x ∈ p, x < 256) (hnull : 0 ∉ p) :
    decodeId k (encodeId k p) = some p := by
  obtain ⟨hiv, hE, hD⟩ := hk
  have hdvd : 16 ∣ (pad p).length := pad_length_dvd p
  have hvalid : ∀ x ∈ pad p, x < 256 := pad_valid p hbytes
  have hblocks : ∀ b ∈ chunk16 (pad p), Block b := chunk16_blocks _ hdvd hvalid
  have hcts : ∀ c ∈ cbcEnc k.enc k.iv (chunk16 (pad p)), Block c :=
    cbcEnc_blocks k.enc hE _ k.iv hiv hblocks
  have hctsLen : ∀ c ∈ cbcEnc k.enc k.iv (chunk16 (pad p)), c.length = 16 :=
    fun c hc => (hcts c hc).1
  have hflatValid : ∀ x ∈ (cbcEnc k.enc k.iv (chunk16 (pad p))).flatten, x < 256 := by
    intro x hx
    rw [List.mem_flatten] at hx
    obtain ⟨c, hc, hxc⟩ := hx
    exact (hcts c hc).2 x hxc
  have hctsNe : cbcEnc k.enc k.iv (chunk16 (pad p)) ≠ [] := by
    have hne : chunk16 (pad p) ≠ [] :=
      chunk16_ne_nil (pad p) (by
        intro hnil
        have := pad_length_pos p
        rw [hnil] at this
        simp at this)
    cases hch : chunk16 (pad p) with
    | nil => exact absurd hch hne
    | cons b bs => simp [cbcEnc]
  have hflatLen : (cbcEnc k.enc k.iv (chunk16 (pad p))).flatten.length =
      16 * (cbcEnc k.enc k.iv (chunk16 (pad p))).length :=
    flatten_blocks_length _ hctsLen
  unfold encodeId decodeId
  have hdata : (String.mk (hexEncode (cbcEnc k.enc k.iv (chunk16 (pad p))).flatten)).data =
      hexEncode (cbcEnc k.enc k.iv (chunk16 (pad p))).flatten := rfl
  rw [hdata, hexDecode_hexEncode _ hflatValid]
  have hcond : (cbcEnc k.enc k.iv (chunk16 (pad p))).flatten.length ≠ 0 ∧
      (cbcEnc k.enc k.iv (chunk16 (pad p))).flatten.length % 16 = 0 := by
    constructor
    · rw [hflatLen]
      have : (cbcEnc k.enc k.iv (chunk16 (pad p))).length ≠ 0 := by
        intro hzero
        exact hctsNe (List.length_eq_zero.mp hzero)
      omega
    · rw [hflatLen]
      omega
  show (if (cbcEnc k.enc k.iv (chunk16 (pad p))).flatten.length ≠ 0 ∧
      (cbcEnc k.enc k.iv (chunk16 (pad p))).flatten.length % 16 = 0 then
      unpad (cbcDec k.dec k.iv
        (chunk16 (cbcEnc k.enc k.iv (chunk16 (pad p))).flatten)).flatten
    else none) = some p
  rw [if_pos hcond, chunk16_flatten_blocks _ hctsLen,
    cbcDec_cbcEnc k.enc k.dec hE hD _ k.iv hiv hblocks, chunk16_flatten]
  exact unpad_pad p

/-- The model key schedule satisfies the EVP guarantees. -/
theorem idKey_good : GoodKey idKey := by
  refine ⟨⟨by simp [idKey], ?_⟩, fun b hb => hb, fun b _ => rfl⟩
  intro x hx
  simp only [idKey] at hx
  have := List.eq_of_mem_replicate hx
  omega

/-- Evaluation of claim C1's theorem at the UTF-8 bytes of `"files"`. -/
theorem pathCodec_roundtrip_witness :
    decodeId idKey (encodeId idKey [102, 105, 108, 101, 115]) =
      some [102, 105, 108, 101, 115] :=
  pathCodec_roundtrip idKey idKey_good [102, 105, 108, 101, 115] (by decide) (by decide)

/-! ### Lemmas about the listing comparator -/

theorem cmpNatList_eq_iff : ∀ l1 l2 : List Nat, cmpNatList l1 l2 = Ordering.eq ↔ l1 = l2 := by
  intro l1
  induction l1 with
  | nil =>
    intro l2
    cases l2 <;> simp [cmpNatList]
  | cons a as ih =>
    intro l2
    cases l2 with
    | nil => simp [cmpNatList]
    | cons b bs =>
      show (if a < b then Ordering.lt
        else if b < a then Ordering.gt else cmpNatList as bs) = Ordering.eq ↔ _
      split_ifs with h1 h2
      · constructor
        · intro h
          exact absurd h (by decide)
        · intro h
          injection h with h' _
          omega
      · constructor
        · intro h
          exact absurd h (by decide)
        · intro h
          injection h with h' _
          omega
      · have hab : a = b := by omega
        subst hab
        rw [ih bs]
        simp

theorem cmpNatList_swap : ∀ l1 l2 : List Nat, cmpNatList l2 l1 = (cmpNatList l1 l2).swap := by
  intro l1
  induction l1 with
  | nil =>
    intro l2
    cases l2 <;> rfl
  | cons a as ih =>
    intro l2
    cases l2 with
    | nil => rfl
    | cons b bs =>
      show (if b < a then Ordering.lt else if a < b then Ordering.gt else cmpNatList bs as) =
        (if a < b then Ordering.lt
          else if b < a then Ordering.gt else cmpNatList as bs).swap
      split_ifs with h1 h2 <;> first
        | rfl
        | omega
        | exact ih bs

theorem cmpNatList_lt_trans : ∀ l1 l2 l3 : List Nat, cmpNatList l1 l2 = Ordering.lt →
    cmpNatList l2 l3 = Ordering.lt → cmpNatList l1 l3 = Ordering.lt := by
  intro l1
  induction l1 with
  | nil =>
    intro l2 l3 h12 h23
    cases l3 with
    | nil =>
      cases l2 with
      | nil => exact h12
      | cons b bs => exact absurd h23 (by simp [cmpNatList])
    | cons c cs => rfl
  | cons a as ih =>
    intro l2 l3 h12 h23
    cases l2 with
    | nil => exact absurd h12 (by simp [cmpNatList])
    | cons b bs =>
      cases l3 with
      | nil => exact absurd h23 (by simp [cmpNatList])
      | cons c cs =>
        rw [show cmpNatList (a :: as) (b :: bs) = (if a < b then Ordering.lt
          else if b < a then Ordering.gt else cmpNatList as bs) from rfl] at h12
        rw [show cmpNatList (b :: bs) (c :: cs) = (if b < c then Ordering.lt
          else if c < b then Ordering.gt else cmpNatList bs cs) from rfl] at h23
        show (if a < c then Ordering.lt
          else if c < a then Ordering.gt else cmpNatList as cs) = Ordering.lt
        split_ifs at h12 with hab hba <;>
          first
            | exact absurd h12 (by decide)
            | (split_ifs at h23 with hbc hcb <;>
                first
                  | exact absurd h23 (by decide)
                  | rw [if_pos (show a < c by omega)]
                  | (rw [if_neg (show ¬a < c by omega), if_neg (show ¬c < a by omega)]
                     exact ih bs cs h12 h23))

theorem cmpNatList_le_trans {l1 l2 l3 : List Nat} (h12 : cmpNatList l1 l2 ≠ Ordering.gt)
    (h23 : cmpNatList l2 l3 ≠ Ordering.gt) : cmpNatList l1 l3 ≠ Ordering.gt := by
  rcases h1 : cmpNatList l1 l2 with _ | _ | _
  · rcases h2 : cmpNatList l2 l3 with _ | _ | _
    · rw [cmpNatList_lt_trans l1 l2 l3 h1 h2]
      decide
    · rw [cmpNatList_eq_iff] at h2
      rw [← h2, h1]
      decide
    · exact absurd h2 h23
  · rw [cmpNatList_eq_iff] at h1
    rw [h1]
    exact h23
  · exact absurd h1 h12

theorem lcOrd_of_lt {p q : List Nat × List Nat} (h : cmpNatList p.1 q.1 = Ordering.lt) :
    lcOrd p q = Ordering.lt := by
  unfold lcOrd
  rw [h]

theorem lcOrd_of_gt {p q : List Nat × List Nat} (h : cmpNatList p.1 q.1 = Ordering.gt) :
    lcOrd p q = Ordering.gt := by
  unfold lcOrd
  rw [h]

theorem lcOrd_of_eq {p q : List Nat × List Nat} (h : cmpNatList p.1 q.1 = Ordering.eq) :
    lcOrd p q = cmpNatList p.2 q.2 := by
  unfold lcOrd
  rw [h]

theorem lcOrd_le_trans {p q r : List Nat × List Nat} (hpq : lcOrd p q ≠ Ordering.gt)
    (hqr : lcOrd q r ≠ Ordering.gt) : lcOrd p r ≠ Ordering.gt := by
  rcases h1 : cmpNatList p.1 q.1 with _ | _ | _
  · rcases h2 : cmpNatList q.1 r.1 with _ | _ | _
    · rw [lcOrd_of_lt (cmpNatList_lt_trans _ _ _ h1 h2)]
      decide
    · rw [lcOrd_of_lt (show cmpNatList p.1 r.1 = Ordering.lt by
        rw [← (cmpNatList_eq_iff q.1 r.1).mp h2]; exact h1)]
      decide
    · exact absurd (lcOrd_of_gt h2) hqr
  · rw [lcOrd_of_eq h1] at hpq
    rcases h2 : cmpNatList q.1 r.1 with _ | _ | _
    · rw [lcOrd_of_lt (show cmpNatList p.1 r.1 = Ordering.lt by
        rw [(cmpNatList_eq_iff p.1 q.1).mp h1]; exact h2)]
      decide
    · rw [lcOrd_of_eq h2] at hqr
      rw [lcOrd_of_eq (show cmpNatList p.1 r.1 = Ordering.eq by
        rw [(cmpNatList_eq_iff p.1 q.1).mp h1]; exact h2)]
      exact cmpNatList_le_trans hpq hqr
    · exact absurd (lcOrd_of_gt h2) hqr
  · exact absurd (lcOrd_of_gt h1) hpq

theorem lcOrd_swap (p q : List Nat × List Nat) : lcOrd q p = (lcOrd p q).swap := by
  rcases h1 : cmpNatList p.1 q.1 with _ | _ | _
  · rw [lcOrd_of_lt h1, lcOrd_of_gt (show cmpNatList q.1 p.1 = Ordering.gt by
      rw [cmpNatList_swap p.1 q.1, h1]; rfl)]
    rfl
  · rw [lcOrd_of_eq h1, lcOrd_of_eq (show cmpNatList q.1 p.1 = Ordering.eq by
      rw [cmpNatList_swap p.1 q.1, h1]; rfl)]
    exact cmpNatList_swap p.2 q.2
  · rw [lcOrd_of_gt h1, lcOrd_of_lt (show cmpNatList q.1 p.1 = Ordering.lt by
      rw [cmpNatList_swap p.1 q.1, h1]; rfl)]
    rfl

theorem localeCompare_nonpos (s t : String) :
    localeCompare s t ≤ 0 ↔ lcOrd (strKeys s) (strKeys t) ≠ Ordering.gt := by
  unfold localeCompare
  rcases h : lcOrd (strKeys s) (strKeys t) with _ | _ | _ <;> decide

theorem localeCompare_le_trans {s t u : String} (h1 : localeCompare s t ≤ 0)
    (h2 : localeCompare t u ≤ 0) : localeCompare s u ≤ 0 := by
  rw [localeCompare_nonpos] at *
  exact lcOrd_le_trans h1 h2

theorem localeCompare_total (s t : String) :
    localeCompare s t ≤ 0 ∨ localeCompare t s ≤ 0 := by
  rw [localeCompare_nonpos, localeCompare_nonpos]
  rcases h : lcOrd (strKeys s) (strKeys t) with _ | _ | _
  · left
    simp [h]
  · left
    simp [h]
  · right
    rw [lcOrd_swap, h]
    decide

theorem entryLe_trans : ∀ e1 e2 e3 : FileEntry, entryLe e1 e2 → entryLe e2 e3 →
    entryLe e1 e3 := by
  intro e1 e2 e3 h12 h23
  unfold entryLe compareEntries at *
  by_cases d1 : e1.type = FileType.directory <;>
    by_cases d2 : e2.type = FileType.directory <;>
      by_cases d3 : e3.type = FileType.directory <;>
        simp only [d1, d2, d3, not_true, not_false_iff, true_and, and_true, false_and,
          and_false, if_true, if_false, ite_true, ite_false, not_true_eq_false,
          not_false_eq_true, if_pos, if_neg] at h12 h23 ⊢
  all_goals first
    | omega
    | exact localeCompare_le_trans h12 h23

theorem entryLe_total : ∀ e1 e2 : FileEntry, entryLe e1 e2 ∨ entryLe e2 e1 := by
  intro e1 e2
  unfold entryLe compareEntries
  by_cases d1 : e1.type = FileType.directory <;>
    by_cases d2 : e2.type = FileType.directory <;>
      simp only [d1, d2, not_true, not_false_iff, true_and, and_true, false_and,
        and_false, if_true, if_false, ite_true, ite_false, not_true_eq_false,
        not_false_eq_true] <;>
    first
      | omega
      | exact localeCompare_total e1.file_name e2.file_name

/-! ### Claims C3 and C4 -/

/-- Claim C3: `listFiles` excludes every child whose name begins with a
dot, and it orders the surviving entries by `compareEntries` — directories
strictly first, entries within one group by locale comparison of
`file_name`; for the children `b.txt`, `A` (a directory), `.hidden`,
`a.txt` the result is exactly `A`, `a.txt`, `b.txt`. -/
theorem listing_order (k : CipherKey) (fs : FsEnv) (parentPath : String)
    (names : List String) :
    (∀ e ∈ listFiles k fs parentPath names, ∃ n ∈ names, startsWithDot n = false ∧
        getFileEntry k fs (pathJoin parentPath n) = Except.ok e) ∧
    (listFiles k fs parentPath names).Sorted entryLe ∧
    (∀ e1 e2 : FileEntry, e1.type = FileType.directory → ¬e2.type = FileType.directory →
        compareEntries e1 e2 = -1) ∧
    (∀ e1 e2 : FileEntry, (e1.type = FileType.directory ↔ e2.type = FileType.directory) →
        compareEntries e1 e2 = localeCompare e1.file_name e2.file_name) ∧
    (listFiles idKey fsEx "files" ["b.txt", "A", ".hidden", "a.txt"]).map
        FileEntry.file_name = ["A", "a.txt", "b.txt"] := by
  refine ⟨?_, ?_, ?_, ?_, by decide⟩
  · intro e he
    rw [listFiles, List.mem_insertionSort, List.mem_filterMap] at he
    obtain ⟨o, ho, hoe⟩ := he
    rw [scanFiles, List.mem_map] at ho
    obtain ⟨n, hn, hdef⟩ := ho
    refine ⟨n, hn, ?_⟩
    by_cases hdot : startsWithDot n
    · rw [if_pos hdot] at hdef
      rw [← hdef] at hoe
      exact absurd hoe (by simp)
    · rw [if_neg hdot] at hdef
      rcases hge : getFileEntry k fs (pathJoin parentPath n) with err | e'
      · rw [hge] at hdef
        rw [← hdef] at hoe
        exact absurd hoe (by simp)
      · rw [hge] at hdef
        rw [← hdef] at hoe
        have : e' = e := by simpa using hoe
        subst this
        exact ⟨by simp [hdot], rfl⟩
  · haveI : IsTotal FileEntry entryLe := ⟨entryLe_total⟩
    haveI : IsTrans FileEntry entryLe := ⟨fun a b c => entryLe_trans a b c⟩
    exact List.sorted_insertionSort entryLe _
  · intro e1 e2 h1 h2
    simp [compareEntries, h1, h2]
  · intro e1 e2 h
    unfold compareEntries
    by_cases d1 : e1.type = FileType.directory
    · have d2 := h.mp d1
      simp [d1, d2]
    · have d2 : ¬e2.type = FileType.directory := fun hd => d1 (h.mpr hd)
      simp [d1, d2]

/-- Evaluation of claim C3's theorem on the four-child example. -/
theorem listing_order_witness :
    (listFiles idKey fsEx "files" ["b.txt", "A", ".hidden", "a.txt"]).map
        FileEntry.file_name = ["A", "a.txt", "b.txt"] :=
  (listing_order idKey fsEx "files" ["b.txt", "A", ".hidden", "a.txt"]).2.2.2.2

theorem filterMap_map_filter_of_none {α β : Type} (g : α → Option β) (bad : α)
    [DecidableEq α] (hg : g bad = none) :
    ∀ l : List α, (l.map g).filterMap id =
      (((l.filter fun x => x ≠ bad).map g)).filterMap id := by
  intro l
  induction l with
  | nil => rfl
  | cons x xs ih =>
    rw [List.filter_cons]
    by_cases hx : x = bad
    · subst hx
      rw [if_neg (by simp), List.map_cons, List.filterMap_cons, hg]
      exact ih
    · rw [if_pos (by simp [hx]), List.map_cons, List.map_cons, List.filterMap_cons,
        List.filterMap_cons]
      cases hval : g x with
      | none => exact ih
      | some e => exact congrArg (fun t => e :: t) ih

theorem scanFilesThrow_error (k : CipherKey) (fs : FsEnv) (parentPath : String)
    (names : List String) (bad : String) (hmem : bad ∈ names)
    (hdot : startsWithDot bad = false)
    (h : fs (statTarget (pathJoin parentPath bad)) = none) :
    ∃ msg, scanFilesThrow k fs parentPath names = Except.error msg := by
  induction names with
  | nil => simp at hmem
  | cons n rest ih =>
    rcases List.mem_cons.mp hmem with rfl | hmem'
    · refine ⟨"Could not get stats for file " ++ bad, ?_⟩
      simp only [scanFilesThrow]
      rw [if_neg (by rw [hdot]; simp)]
      unfold getFileEntry
      rw [h]
    · obtain ⟨msg, herr⟩ := ih hmem'
      by_cases hdotn : startsWithDot n
      · exact ⟨msg, by simp only [scanFilesThrow]; rw [if_pos hdotn, herr]; rfl⟩
      · cases hge : getFileEntry k fs (pathJoin parentPath n) with
        | error e =>
          exact ⟨"Could not get stats for file " ++ n, by
            simp only [scanFilesThrow]
            rw [if_neg hdotn, hge]⟩
        | ok e =>
          exact ⟨msg, by simp only [scanFilesThrow]; rw [if_neg hdotn, hge, herr]; rfl⟩

/-- Counterexample to claim C4 as stated: under the claim-cited revision of
`scanFiles` whose catch rethrows, the single unreadable child `bad.txt`
fails the whole listing instead of being dropped; the two readable children
are returned only when the bad name is absent. -/
theorem listing_partial_failure_counterexample :
    exceptErr (listFilesThrow idKey fsPartial "files" ["x.txt", "bad.txt", "y.txt"]) =
      some "Could not get stats for file bad.txt" ∧
    (exceptVal (listFilesThrow idKey fsPartial "files" ["x.txt", "y.txt"])).map
      (List.map FileEntry.file_name) = some ["x.txt", "y.txt"] := by
  decide

/-- Claim C4 amended: the two staged revisions of `scanFiles` disagree.  In
the revision at the head of `fsutils.ts` a child whose stat fails is
silently dropped — the listing is unchanged when that name is removed and
every other child's entry is still returned, without error.  In the
claim-cited revision at the end of the file the catch rethrows, so
`Promise.all` rejects and a single bad child makes the whole listing
fail. -/
theorem listing_partial_failure (k : CipherKey) (fs : FsEnv) (parentPath : String)
    (names : List String) (bad : String)
    (h : fs (statTarget (pathJoin parentPath bad)) = none) :
    (listFiles k fs parentPath names =
      listFiles k fs parentPath (names.filter fun n => n ≠ bad)) ∧
    (bad ∈ names → startsWithDot bad = false →
      exceptIsOk (listFilesThrow k fs parentPath names) = false) := by
  constructor
  · unfold listFiles scanFiles
    congr 1
    refine filterMap_map_filter_of_none _ bad ?_ names
    by_cases hdot : startsWithDot bad
    · rw [if_pos hdot]
    · rw [if_neg hdot]
      unfold getFileEntry
      rw [h]
  · intro hmem hdot
    obtain ⟨msg, herr⟩ := scanFilesThrow_error k fs parentPath names bad hmem hdot h
    rw [listFilesThrow, herr]
    rfl

/-- Evaluation of claim C4's theorem: with `bad.txt` unreadable, the
dropping revision lists `x.txt`, `bad.txt`, `y.txt` exactly like `x.txt`,
`y.txt`, while the rethrowing revision fails the whole listing. -/
theorem listing_partial_failure_witness :
    (listFiles idKey fsPartial "files" ["x.txt", "bad.txt", "y.txt"] =
      listFiles idKey fsPartial "files"
        (["x.txt", "bad.txt", "y.txt"].filter fun n => n ≠ "bad.txt")) ∧
    exceptIsOk (listFilesThrow idKey fsPartial "files" ["x.txt", "bad.txt", "y.txt"]) =
      false :=
  ⟨(listing_partial_failure idKey fsPartial "files" ["x.txt", "bad.txt", "y.txt"]
      "bad.txt" (by decide)).1,
   (listing_partial_failure idKey fsPartial "files" ["x.txt", "bad.txt", "y.txt"]
      "bad.txt" (by decide)).2 (by decide) (by decide)⟩

/-! ### Claims C5, C6, C7 -/

/-- Counterexample to claim C5 as stated: on the malformed identifier
`"zz"` the decode step fails, and the `/id/:id` handler lets the failure
escape uncaught — the outcome is not the caught not-found response. -/
theorem decode_failure_uncaught_counterexample :
    decodeId idKey "zz" = none ∧
    idRoute idKey (fun _ => none) "zz" = Outcome.uncaught ∧
    Outcome.uncaught ≠ Outcome.errorResponse "Path could not be read." := by
  decide

/-- Claim C5 amended: decoding a malformed identifier raises an error that
escapes the `/id/:id` handler uncaught — the decipher runs outside the
`try`/`catch` of `handleGetRequest`, so a decode failure is never mapped to
the not-found response. -/
theorem decode_failure_uncaught (k : CipherKey) (fs : FsEnv) (idStr : String)
    (h : decodeId k idStr = none) : idRoute k fs idStr = Outcome.uncaught := by
  unfold idRoute
  rw [h]

/-- Evaluation of claim C5's amended theorem at the identifier `"zz"`. -/
theorem decode_failure_uncaught_witness :
    idRoute idKey (fun _ => none) "zz" = Outcome.uncaught :=
  decode_failure_uncaught idKey (fun _ => none) "zz" (by decide)

/-- Counterexample to claim C6 as stated: the input `"../../etc/passwd"`
resolves outside the storage root, yet `getFileEntry` succeeds — it stats
and reads the escaped target instead of rejecting the request. -/
theorem no_traversal_check_counterexample :
    underRoot (statTarget "../../etc/passwd") = false ∧
    isOkResult (getFileEntry idKey fsOutside "../../etc/passwd") = true := by
  decide

/-- Claim C6 amended: metadata resolution performs no traversal check —
the input path is joined beneath the storage root and stat'ed even when the
resolution escapes above the root, and whenever that stat succeeds the
entry is returned; no `PathTraversalError` exists in the code. -/
theorem no_traversal_check (k : CipherKey) (fs : FsEnv) (p : String) (st : Stats)
    (h : fs (statTarget p) = some st) :
    isOkResult (getFileEntry k fs p) = true := by
  unfold getFileEntry
  rw [h]
  dsimp only
  by_cases hd : st.isDirectory
  · rw [if_pos hd]
    rfl
  · rw [if_neg hd]
    split_ifs <;> rfl

/-- Evaluation of claim C6's amended theorem at the escaping path. -/
theorem no_traversal_check_witness :
    isOkResult (getFileEntry idKey fsOutside "../../etc/passwd") = true :=
  no_traversal_check idKey fsOutside "../../etc/passwd" ⟨false, 4⟩ (by decide)

/-- Claim C7: the `type` of the entry `getFileEntry` returns is the pure
function `fileTypeOf` of the directory flag and the extension of the
basename — the directory flag wins regardless of name, `.csv` gives
`tabular`, `.png`/`.jpg`/`.dzi` give `scalable_image`, and every other
extension gives `file`. -/
theorem entry_type_classification (k : CipherKey) (fs : FsEnv) (p : String) (st : Stats)
    (h : fs (statTarget p) = some st) :
    (∃ e, getFileEntry k fs p = Except.ok e ∧
        e.type = fileTypeOf st.isDirectory (extname (basename p))) ∧
    (∀ ext, fileTypeOf true ext = FileType.directory) ∧
    fileTypeOf false ".csv" = FileType.tabular ∧
    fileTypeOf false ".png" = FileType.scalable_image ∧
    fileTypeOf false ".jpg" = FileType.scalable_image ∧
    fileTypeOf false ".dzi" = FileType.scalable_image ∧
    (∀ ext, ext ≠ ".csv" → ext ≠ ".png" → ext ≠ ".jpg" → ext ≠ ".dzi" →
        fileTypeOf false ext = FileType.file) := by
  refine ⟨?_, fun ext => rfl, by decide, by decide, by decide, by decide, ?_⟩
  · unfold getFileEntry
    rw [h]
    dsimp only
    by_cases hd : st.isDirectory
    · rw [if_pos hd]
      exact ⟨_, rfl, by rw [fileTypeOf, if_pos hd]⟩
    · rw [if_neg hd]
      rw [fileTypeOf, if_neg hd]
      by_cases hcsv : extname (basename p) = ".csv"
      · rw [if_pos hcsv, if_pos hcsv]
        exact ⟨_, rfl, rfl⟩
      · rw [if_neg hcsv, if_neg hcsv]
        by_cases himg : extname (basename p) = ".png" ∨ extname (basename p) = ".jpg" ∨
            extname (basename p) = ".dzi"
        · rw [if_pos himg, if_pos himg]
          exact ⟨_, rfl, rfl⟩
        · rw [if_neg himg, if_neg himg]
          exact ⟨_, rfl, rfl⟩
  · intro ext h1 h2 h3 h4
    rw [fileTypeOf, if_neg (by decide), if_neg h1, if_neg (by simp [h2, h3, h4])]

/-- Evaluation of claim C7's theorem on a stat'ed plain `.txt` file. -/
theorem entry_type_classification_witness :
    ∃ e, getFileEntry idKey fsEx "files/a.txt" = Except.ok e ∧
      e.type = fileTypeOf (Stats.mk false 1).isDirectory (extname (basename "files/a.txt")) :=
  (entry_type_classification idKey fsEx "files/a.txt" ⟨false, 1⟩ (by decide)).1

end JHProject
